import Mathlib

/-!
# Verification of `capreolus/trainer/pytorchann.py`

A shallow embedding of the `PytorchANNTrainer` class.  The trainer
orchestrates external collaborators (the encoder, the torch dataloaders, the
optimizer, the evaluator); those collaborators are modelled as parameters
(functions and data passed in), while every piece of control flow, arithmetic
and data-plumbing of the trainer itself is translated directly from the
source.  Observable effects (batch fetches, backward passes, optimizer steps,
weight loads/saves, file writes, log lines, validation rounds) are recorded
in an explicit event trace.

Numeric values (losses, scores) are rationals; reduced-precision conversion
(`numpy.float16`) is an abstract parameter `f16`.
-/

namespace Capreolus

/-- A tensor value: its payload plus the device it currently lives on.
`Tensor.to` models `torch.Tensor.to(device)`, which changes only the device. -/
structure Tensor where
  data : List ℚ
  device : String
deriving DecidableEq, Repr

def Tensor.to (t : Tensor) (d : String) : Tensor :=
  { t with device := d }

/-- A value stored in a batch mapping: either a tensor or a raw identifier
list.  The source distinguishes the two cases with `isinstance(v, list)`
(lines 50 and 129). -/
inductive FieldVal where
  | tensor (t : Tensor)
  | list (xs : List String)
deriving DecidableEq, Repr

/-- A batch as yielded by a dataloader: a mapping from field names to values,
modelled as an association list. -/
abbrev Batch := List (String × FieldVal)

/-- One entry of the device-move dict comprehension on lines 50/129:
`v.to(self.device) if not isinstance(v, list) else v`. -/
def moveField (dev : String) (v : FieldVal) : FieldVal :=
  match v with
  | FieldVal.list xs => FieldVal.list xs
  | FieldVal.tensor t => FieldVal.tensor (t.to dev)

/-- The device-move dict comprehension applied to a whole batch. -/
def moveBatch (dev : String) (b : Batch) : Batch :=
  b.map (fun kv => (kv.1, moveField dev kv.2))

/-- The trainer configuration (`config_spec`, lines 19-39), with the default
values declared there.  Integer-valued options are `Nat`s, real-valued ones
rationals. -/
structure Config where
  batch : Nat := 1
  niters : Nat := 6
  itersize : Nat := 1024
  gradacc : Nat := 1
  lr : ℚ := 1 / 1000
  softmaxloss : Bool := false
  fastforward : Bool := false
  validatefreq : Nat := 6
  multithread : Bool := false
  boardname : String := "default"
  warmupsteps : Nat := 0
  decay : ℚ := 0
  decaystep : Nat := 3
  decaytype : Option String := none
  amp : Option String := none
deriving DecidableEq, Repr

/-- Observable effects of a training run, in program order.
`batchFetch bi` is one pull from the training batch source, `backward bi`
the backward pass on that batch; `loadWeights`/`saveWeights` carry the path
and whether the optimizer state is included. -/
inductive Event where
  | batchFetch (bi : Nat)
  | backward (bi : Nat)
  | optStep
  | zeroGrad
  | lossLog (niter : Nat) (value : ℚ)
  | validation (niter : Nat)
  | loadWeights (path : String) (withOptimizer : Bool)
  | warn (msg : String)
  | saveWeights (path : String) (withOptimizer : Bool)
  | writeFile (path : String) (content : String)
deriving DecidableEq, Repr

/-- The encoder collaborator, reduced to the interface the trainer consumes:
`exists()` (whether a completed checkpoint is present), `get_results_path()`,
`score(batch)` (training-time relative scores, consumed by the loss) and
`test(batch)` (inference scores, flattened to a list by `.view(-1)`). -/
structure Encoder where
  weightsExist : Bool
  resultsPath : String
  score : Batch → List (ℚ × ℚ)
  test : Batch → List ℚ

/-- Modelled from the spec: `pair_hinge_loss` is imported (line 8) from
`capreolus.reranker.common`, which is not among this repository's sources.
The spec describes it as a pairwise hinge loss over the margin between a
positive and a negative document score for the same query. -/
def pair_hinge_loss (scorePairs : List (ℚ × ℚ)) : ℚ :=
  ((scorePairs.map (fun p => max 0 (1 - (p.1 - p.2)))).sum) / scorePairs.length

/-- Line 87: `self.loss_function = pair_hinge_loss`.  The assignment reads
nothing from the configuration (in particular not the `softmaxloss` option). -/
def activeLossFunction (_cfg : Config) : List (ℚ × ℚ) → ℚ :=
  pair_hinge_loss

/-- Line 84: `torch.device("cuda" if torch.cuda.is_available() else "cpu")`.
CUDA availability is an input of the model. -/
def trainDevice (cudaAvailable : Bool) : String :=
  if cudaAvailable then "cuda" else "cpu"

/-- Line 45: `batches_per_epoch = (itersize // batch) or 1`.
Python's `or` replaces the value with 1 exactly when the division is 0. -/
def batches_per_epoch (cfg : Config) : Nat :=
  if cfg.itersize / cfg.batch = 0 then 1 else cfg.itersize / cfg.batch

/-- Models `torch.stack(iter_loss).mean()`: the arithmetic mean of the accumulated
per-batch losses (line 69). -/
def listMean (l : List ℚ) : ℚ := l.sum / l.length

/-- The body of the training loop (lines 50-62) for the batch at index `bi`,
with `since` the current `batches_since_update`: fetch the batch, move it to
the device, score it, compute the loss, append it to `iter_loss`, run the
backward pass, and step/zero the optimizer once `gradacc` batches have
accumulated.  Returns the emitted events, the appended loss, and the updated
`batches_since_update`. -/
def batchStep (score : Batch → List (ℚ × ℚ)) (lossFn : List (ℚ × ℚ) → ℚ)
    (dl : Nat → Batch) (dev : String) (gradacc : Nat) (bi since : Nat) :
    List Event × ℚ × Nat :=
  let b := moveBatch dev (dl bi)
  let l := lossFn (score b)
  if since + 1 = gradacc then
    ([Event.batchFetch bi, Event.backward bi, Event.optStep, Event.zeroGrad], l, 0)
  else
    ([Event.batchFetch bi, Event.backward bi], l, since + 1)

/-- Lines 49-67: the `for bi, batch in enumerate(train_dataloader)` loop.
The training batch source is external; per the spec it cycles/truncates as
needed, so it is modelled as an infinite stream `dl` of batches, and the loop
exits only through the `(bi + 1) % batches_per_epoch == 0` break.  `fuel`
bounds the recursion; `iterLoop_eq_iterSpec` below shows the result is the
same for every fuel large enough to reach the break, which is how
`single_train_iteration` instantiates it. -/
def iterLoop (score : Batch → List (ℚ × ℚ)) (lossFn : List (ℚ × ℚ) → ℚ)
    (dl : Nat → Batch) (dev : String) (bpe gradacc : Nat) :
    Nat → Nat → Nat → List Event × List ℚ
  | 0, _, _ => ([], [])
  | fuel + 1, bi, since =>
    let s := batchStep score lossFn dl dev gradacc bi since
    if (bi + 1) % bpe = 0 then (s.1, [s.2.1])
    else
      let r := iterLoop score lossFn dl dev bpe gradacc fuel (bi + 1) s.2.2
      (s.1 ++ r.1, s.2.1 :: r.2)

/-- The same loop body iterated a fixed number `n` of times, with no break
test: the reference shape `iterLoop` is proved to compute. -/
def iterSpec (score : Batch → List (ℚ × ℚ)) (lossFn : List (ℚ × ℚ) → ℚ)
    (dl : Nat → Batch) (dev : String) (gradacc : Nat) :
    Nat → Nat → Nat → List Event × List ℚ
  | 0, _, _ => ([], [])
  | n + 1, bi, since =>
    let s := batchStep score lossFn dl dev gradacc bi since
    let r := iterSpec score lossFn dl dev gradacc n (bi + 1) s.2.2
    (s.1 ++ r.1, s.2.1 :: r.2)

/-- Source method `single_train_iteration` (lines 43-69).  Returns the event trace and the
`iter_loss` list; the value the iteration reports is `listMean` of the
second component (line 69). -/
def single_train_iteration (score : Batch → List (ℚ × ℚ))
    (lossFn : List (ℚ × ℚ) → ℚ) (dl : Nat → Batch) (dev : String)
    (cfg : Config) : List Event × List ℚ :=
  iterLoop score lossFn dl dev (batches_per_epoch cfg) cfg.gradacc
    (batches_per_epoch cfg) 0 0

/-- Closed form for the events of one training iteration: for the `j`-th
consumed batch the loop emits a fetch and a backward pass, followed by an
optimizer step and a gradient clear exactly when `gradacc` batches have
accumulated since the last step. -/
def specEvents (gradacc : Nat) : Nat → Nat → Nat → List Event
  | 0, _, _ => []
  | n + 1, bi, since =>
    ([Event.batchFetch bi, Event.backward bi] ++
      (if (since + 1) % gradacc = 0 then [Event.optStep, Event.zeroGrad] else [])) ++
    specEvents gradacc n (bi + 1) (since + 1)

/-- Closed form for the `iter_loss` list of one training iteration: one loss
value per consumed batch, the loss of that very batch. -/
def specLosses (score : Batch → List (ℚ × ℚ)) (lossFn : List (ℚ × ℚ) → ℚ)
    (dl : Nat → Batch) (dev : String) : Nat → Nat → List ℚ
  | 0, _ => []
  | n + 1, bi =>
    lossFn (score (moveBatch dev (dl bi))) ::
      specLosses score lossFn dl dev n (bi + 1)

/-! ## Validation (`validate`, lines 115-138) -/

/-- The inner dict of the predictions map: document id to score. -/
abbrev Inner := List (String × ℚ)

/-- The predictions map `preds`: query id to inner dict. -/
abbrev Preds := List (String × Inner)

/-- One line of `val_output.log`: the qid and docid read from the batch before
the device move, and the reduced-precision score of the batch's single score
entry. -/
abbrev ValLogEntry := String × String × ℚ

/-- Dictionary lookup `batch[k]`: the first entry with key `k`, if any. -/
def getField (b : Batch) (k : String) : Option FieldVal :=
  (b.find? (fun e => e.1 == k)).map Prod.snd

/-- A batch field used as an identifier list; anything else fails. -/
def fieldAsList : Option FieldVal → Option (List String)
  | some (FieldVal.list xs) => some xs
  | _ => none

/-- Models `numpy.ndarray.item()`: defined exactly on arrays of size 1; on any other
size it raises (`can only convert an array of size 1 to a Python scalar`). -/
def itemOf : List ℚ → Option ℚ
  | [s] => some s
  | _ => none

/-- Assignment into the inner dict: replace the value of an existing key,
else append the new key. -/
def innerPut (inner : Inner) (d : String) (s : ℚ) : Inner :=
  if inner.any (fun p => p.1 == d) then
    inner.map (fun p => if p.1 == d then (d, s) else p)
  else inner ++ [(d, s)]

/-- Line 134, `preds.setdefault(qid, dict())[docid] = score`: update the inner dict of
an existing query, else append a fresh singleton inner dict. -/
def predsPut (preds : Preds) (q d : String) (s : ℚ) : Preds :=
  if preds.any (fun p => p.1 == q) then
    preds.map (fun p => if p.1 == q then (q, innerPut p.2 d s) else p)
  else preds ++ [(q, [(d, s)])]

/-- Dictionary lookup in the predictions map (empty inner dict if absent). -/
def innerOf (p : Preds) (q : String) : Inner :=
  match p.find? (fun e => e.1 == q) with
  | some e => e.2
  | none => []

/-- The body of the validation loop (lines 127-134) on one batch:
read `batch["qid"][0]` and `batch["posdocid"][0]` (before the device move),
move the batch, score it with `encoder.test`, write the log line - whose
score is `scores.astype(np.float16).item()`, the step that raises unless the
batch yields exactly one score - then fold every `zip`-ped
(qid, docid, score) triple of the moved batch into `preds`.  A raise is
modelled as `none`. -/
def validateBatch (f16 : ℚ → ℚ) (tst : Batch → List ℚ) (dev : String)
    (b : Batch) (preds : Preds) : Option (Preds × ValLogEntry) := do
  let qids0 ← fieldAsList (getField b "qid")
  let qid ← qids0.head?
  let docids0 ← fieldAsList (getField b "posdocid")
  let doc_id ← docids0.head?
  let bMoved := moveBatch dev b
  let scores := tst bMoved
  let s ← itemOf scores
  let entry : ValLogEntry := (qid, doc_id, f16 s)
  let qids ← fieldAsList (getField bMoved "qid")
  let docids ← fieldAsList (getField bMoved "posdocid")
  let triples := qids.zip (docids.zip scores)
  let preds2 := triples.foldl (fun acc t => predsPut acc t.1 t.2.1 (f16 t.2.2)) preds
  return (preds2, entry)

/-- The validation loop over all batches of the dev dataloader, threading
`preds` and the `val_output.log` lines. -/
def validateGo (f16 : ℚ → ℚ) (tst : Batch → List ℚ) (dev : String) :
    List Batch → Preds → List ValLogEntry → Option (Preds × List ValLogEntry)
  | [], preds, log => some (preds, log)
  | b :: rest, preds, log =>
    match validateBatch f16 tst dev b preds with
    | none => none
    | some r => validateGo f16 tst dev rest r.1 (log ++ [r.2])

/-- Source method `validate` (lines 115-138).  The dev dataloader is external; it is
modelled as the finite list of batches it yields.  Returns the predictions
map and the log lines, or `none` when the loop raises. -/
def validate (f16 : ℚ → ℚ) (tst : Batch → List ℚ) (dev : String)
    (batches : List Batch) : Option (Preds × List ValLogEntry) :=
  validateGo f16 tst dev batches [] []

/-- A batch on which the validation loop body completes: the `qid` and
`posdocid` fields are nonempty identifier lists and `encoder.test` yields
exactly one score (the identifier fields of a dataloader batch are
list-valued per the batch-source contract described in the spec). -/
def okValBatch (tst : Batch → List ℚ) (dev : String) (b : Batch) : Bool :=
  (match getField b "qid" with
   | some (FieldVal.list (_ :: _)) => true
   | _ => false) &&
  (match getField b "posdocid" with
   | some (FieldVal.list (_ :: _)) => true
   | _ => false) &&
  ((tst (moveBatch dev b)).length == 1)

/-- A batch holding exactly one example: singleton `qid` and `posdocid`
identifier lists, and a single score from `encoder.test`. -/
def oneExample (tst : Batch → List ℚ) (dev : String) (b : Batch) : Bool :=
  (match getField b "qid" with
   | some (FieldVal.list [_]) => true
   | _ => false) &&
  (match getField b "posdocid" with
   | some (FieldVal.list [_]) => true
   | _ => false) &&
  ((tst (moveBatch dev b)).length == 1)

/-! ## The outer training procedure (`_train`, lines 82-113, and `train`) -/

/-- One pass of the `for niter in range(niters)` loop of `_train`
(lines 94-108): run a training iteration, log its mean loss, and - when
`(niter + 1) % validatefreq == 0` - run validation.  A raise inside
`validate` aborts the whole run (`none`). -/
def iterationChunk (enc : Encoder) (dl : Nat → Batch) (devBatches : List Batch)
    (cudaAvailable : Bool) (f16 : ℚ → ℚ) (cfg : Config) (niter : Nat) :
    Option (List Event) :=
  let dev := trainDevice cudaAvailable
  let it := single_train_iteration enc.score (activeLossFunction cfg) dl dev cfg
  let evs := it.1 ++ [Event.lossLog niter (listMean it.2)]
  if (niter + 1) % cfg.validatefreq = 0 then
    match validate f16 enc.test dev devBatches with
    | none => none
    | some _ => some (evs ++ [Event.validation niter])
  else some evs

/-- The `for niter in range(niters)` loop, over an explicit list of iteration
indices. -/
def trainItersGo (enc : Encoder) (dl : Nat → Batch) (devBatches : List Batch)
    (cudaAvailable : Bool) (f16 : ℚ → ℚ) (cfg : Config) :
    List Nat → Option (List Event)
  | [] => some []
  | n :: rest =>
    match iterationChunk enc dl devBatches cudaAvailable f16 cfg n with
    | none => none
    | some evs =>
      match trainItersGo enc dl devBatches cudaAvailable f16 cfg rest with
      | none => none
      | some evs2 => some (evs ++ evs2)

/-- Source method `_train` (lines 82-113): select the device, fix the loss function, run
`niters` iterations (with scheduled validation), then save the encoder
weights together with the optimizer state under
`output_path / "trained_weights"` and write the sentinel file
`output_path / "done"` with literal content `"done"`. -/
def _train (enc : Encoder) (dl : Nat → Batch) (devBatches : List Batch)
    (output_path : String) (cudaAvailable : Bool) (f16 : ℚ → ℚ)
    (cfg : Config) : Option (List Event) :=
  match trainItersGo enc dl devBatches cudaAvailable f16 cfg
      (List.range cfg.niters) with
  | none => none
  | some evs =>
    some (evs ++ [Event.saveWeights (output_path ++ "/trained_weights") true,
                  Event.writeFile (output_path ++ "/done") "done"])

/-- Source method `train` (lines 72-80): build the optimizer, then either resume - when
`encoder.exists()` reports a completed checkpoint, load the saved weights
and optimizer state and warn - or delegate to `_train`. -/
def train (enc : Encoder) (dl : Nat → Batch) (devBatches : List Batch)
    (output_path : String) (cudaAvailable : Bool) (f16 : ℚ → ℚ)
    (cfg : Config) : Option (List Event) :=
  if enc.weightsExist then
    some [Event.loadWeights (enc.resultsPath ++ "/trained_weights") true,
          Event.warn "Skipping training since weights were found"]
  else
    _train enc dl devBatches output_path cudaAvailable f16 cfg

/-! ## Event classifiers -/

def isFetch : Event → Bool
  | Event.batchFetch _ => true
  | _ => false

def isBackward : Event → Bool
  | Event.backward _ => true
  | _ => false

def isOptStep : Event → Bool
  | Event.optStep => true
  | _ => false

def isValidation : Event → Bool
  | Event.validation _ => true
  | _ => false

def isLoad : Event → Bool
  | Event.loadWeights _ _ => true
  | _ => false

def isSave : Event → Bool
  | Event.saveWeights _ _ => true
  | _ => false

/-- The events an iteration's inner loop can emit. -/
def isIterEvent : Event → Bool
  | Event.batchFetch _ => true
  | Event.backward _ => true
  | Event.optStep => true
  | Event.zeroGrad => true
  | _ => false

/-- The pure event list of one pass of the `niters` loop (what
`iterationChunk` returns whenever it succeeds). -/
def chunkEvents (enc : Encoder) (dl : Nat → Batch) (cudaAvailable : Bool)
    (cfg : Config) (niter : Nat) : List Event :=
  let dev := trainDevice cudaAvailable
  let it := single_train_iteration enc.score (activeLossFunction cfg) dl dev cfg
  (it.1 ++ [Event.lossLog niter (listMean it.2)]) ++
    (if (niter + 1) % cfg.validatefreq = 0 then [Event.validation niter] else [])

/-- Concatenation of the per-iteration event lists. -/
def chunksEvents (enc : Encoder) (dl : Nat → Batch) (cudaAvailable : Bool)
    (cfg : Config) : List Nat → List Event
  | [] => []
  | n :: rest =>
    chunkEvents enc dl cudaAvailable cfg n ++
      chunksEvents enc dl cudaAvailable cfg rest

/-! ## Concrete fixtures (used by witness instantiations) -/

/-- The end-to-end scenario configuration of the spec: `batch=2`,
`itersize=4`, `niters=1`, `gradacc=1`, every other option at its declared
default.  With `batch=2` a source of 4 training examples yields 2-example
batches; the batch/step counts below hold for every batch stream. -/
def scenarioConfig : Config :=
  { batch := 2, niters := 1, itersize := 4, gradacc := 1 }

/-- A minimal configuration for concrete runs: one iteration of one batch. -/
def smallConfig : Config :=
  { batch := 1, niters := 1, itersize := 1, gradacc := 1 }

/-- A concrete encoder with no completed checkpoint. -/
def sampleEncoder : Encoder :=
  { weightsExist := false, resultsPath := "results",
    score := fun _ => [], test := fun _ => [0] }

/-- A concrete encoder whose `exists()` reports a completed checkpoint. -/
def sampleEncoderDone : Encoder :=
  { sampleEncoder with weightsExist := true }

/-- A concrete (constant) training batch stream. -/
def sampleLoader : Nat → Batch := fun _ => []

/-- A validation batch holding exactly one example. -/
def oneExampleBatch : Batch :=
  [("qid", FieldVal.list ["q1"]), ("posdocid", FieldVal.list ["d1"])]

/-- A second one-example validation batch (same query, another document). -/
def oneExampleBatch2 : Batch :=
  [("qid", FieldVal.list ["q1"]), ("posdocid", FieldVal.list ["d2"])]

/-- A validation batch holding two examples. -/
def twoExampleBatch : Batch :=
  [("qid", FieldVal.list ["q1", "q2"]), ("posdocid", FieldVal.list ["d1", "d2"])]

/-- A scorer yielding one score per batch. -/
def oneScore : Batch → List ℚ := fun _ => [0]

/-- The events of one training iteration in the concrete runs below
(one batch per iteration, `gradacc = 1`). -/
def sampleIterEvents : List Event :=
  [Event.batchFetch 0, Event.backward 0, Event.optStep, Event.zeroGrad]

/-- The configuration of the concrete six-iteration run: one one-example
batch per iteration, with the declared defaults `niters = 6`,
`validatefreq = 6`. -/
def sampleCfgSix : Config := { batch := 1, itersize := 1 }

/-- The per-iteration mean loss of the concrete six-iteration run. -/
def sampleLossSix : ℚ :=
  listMean (single_train_iteration sampleEncoder.score
    (activeLossFunction sampleCfgSix) sampleLoader (trainDevice false)
    sampleCfgSix).2

/-- The full `_train` trace of the concrete six-iteration run. -/
def sampleTraceSix : List Event :=
  sampleIterEvents ++ [Event.lossLog 0 sampleLossSix] ++
  sampleIterEvents ++ [Event.lossLog 1 sampleLossSix] ++
  sampleIterEvents ++ [Event.lossLog 2 sampleLossSix] ++
  sampleIterEvents ++ [Event.lossLog 3 sampleLossSix] ++
  sampleIterEvents ++ [Event.lossLog 4 sampleLossSix] ++
  sampleIterEvents ++ [Event.lossLog 5 sampleLossSix, Event.validation 5] ++
  [Event.saveWeights "out/trained_weights" true,
   Event.writeFile "out/done" "done"]

/-- The per-iteration mean loss of the concrete one-iteration run. -/
def sampleLossOne : ℚ :=
  listMean (single_train_iteration sampleEncoder.score
    (activeLossFunction smallConfig) sampleLoader (trainDevice false)
    smallConfig).2

/-- The full `_train` trace of the concrete one-iteration run
(`smallConfig`). -/
def sampleTraceOne : List Event :=
  sampleIterEvents ++ [Event.lossLog 0 sampleLossOne] ++
  [Event.saveWeights "out/trained_weights" true,
   Event.writeFile "out/done" "done"]

/-- A scorer yielding two scores per batch. -/
def twoScores : Batch → List ℚ := fun _ => [0, 0]

/-! ## Lemmas about the training iteration loop -/

lemma succ_mod_eq_zero_iff {bi bpe : Nat} (h : 0 < bpe) :
    (bi + 1) % bpe = 0 ↔ bi % bpe = bpe - 1 := by
  constructor
  · intro h1
    obtain ⟨k, hk⟩ := Nat.dvd_of_mod_eq_zero h1
    have hk1 : 1 ≤ k := by
      rcases Nat.eq_zero_or_pos k with h0 | h0

      · subst h0; omega
      · exact h0
    have h2 : bpe * k = bpe * (k - 1) + bpe := by
      calc bpe * k = bpe * ((k - 1) + 1) := by rw [Nat.sub_add_cancel hk1]
        _ = bpe * (k - 1) + bpe := by rw [Nat.mul_add, Nat.mul_one]
    have h3 : bi = (bpe - 1) + bpe * (k - 1) := by omega
    rw [h3, Nat.add_mul_mod_self_left]
    exact Nat.mod_eq_of_lt (by omega)
  · intro h1
    have hdm := Nat.div_add_mod bi bpe
    have h2 : bi + 1 = bpe * (bi / bpe) + bpe := by omega
    have h3 : bi + 1 = bpe * (bi / bpe + 1) := by
      rw [Nat.mul_add, Nat.mul_one]; exact h2
    rw [h3]
    exact Nat.mul_mod_right _ _

lemma succ_mod_of_ne {bi bpe : Nat} (h : 0 < bpe) (hne : (bi + 1) % bpe ≠ 0) :
    (bi + 1) % bpe = bi % bpe + 1 := by
  have hlt : bi % bpe < bpe := Nat.mod_lt _ h
  have hne2 : bi % bpe ≠ bpe - 1 := fun hc => hne ((succ_mod_eq_zero_iff h).mpr hc)
  have hdm := Nat.div_add_mod bi bpe
  have h3 : bi + 1 = bpe * (bi / bpe) + (bi % bpe + 1) := by omega
  rw [h3, Nat.mul_add_mod]
  exact Nat.mod_eq_of_lt (by omega)

lemma iterSpec_losses (score : Batch → List (ℚ × ℚ)) (lossFn : List (ℚ × ℚ) → ℚ)
    (dl : Nat → Batch) (dev : String) (g : Nat) :
    ∀ n bi since, (iterSpec score lossFn dl dev g n bi since).2 =
      specLosses score lossFn dl dev n bi := by
  intro n
  induction n with
  | zero => intro bi since; rfl
  | succ n ih =>
    intro bi since
    simp only [iterSpec, specLosses, batchStep]
    split <;> simp [ih]

lemma specEvents_shift (g : Nat) :
    ∀ n bi s, specEvents g n bi (s + g) = specEvents g n bi s := by
  intro n
  induction n with
  | zero => intro bi s; rfl
  | succ n ih =>
    intro bi s
    have hc : s + g + 1 = s + 1 + g := by omega
    simp only [specEvents, hc, Nat.add_mod_right]
    rw [ih (bi + 1) (s + 1)]

lemma iterSpec_events (score : Batch → List (ℚ × ℚ)) (lossFn : List (ℚ × ℚ) → ℚ)
    (dl : Nat → Batch) (dev : String) (g : Nat) :
    ∀ n bi since, (g = 0 ∨ since < g) →
      (iterSpec score lossFn dl dev g n bi since).1 = specEvents g n bi since := by
  intro n
  induction n with
  | zero => intro bi since _; rfl
  | succ n ih =>
    intro bi since hg
    by_cases hstep : since + 1 = g
    · have hgpos : 0 < g := by omega
      have hmod : (since + 1) % g = 0 := by rw [hstep]; exact Nat.mod_self g
      have h0 : specEvents g n (bi + 1) (since + 1) = specEvents g n (bi + 1) 0 := by
        rw [hstep]
        have h1 := specEvents_shift g n (bi + 1) 0
        rw [Nat.zero_add] at h1
        exact h1
      simp only [iterSpec, batchStep, specEvents]
      rw [if_pos hstep, if_pos hmod]
      rw [ih (bi + 1) 0 (Or.inr hgpos), h0]
      simp
    · have hmod : ¬((since + 1) % g = 0) := by
        rcases hg with h0 | hlt
        · subst h0
          simp only [Nat.mod_zero]
          omega
        · have hlt2 : since + 1 < g := by omega
          rw [Nat.mod_eq_of_lt hlt2]; omega
      have hg2 : g = 0 ∨ since + 1 < g := by
        rcases hg with h0 | hlt
        · exact Or.inl h0
        · exact Or.inr (by omega)
      simp only [iterSpec, batchStep, specEvents]
      rw [if_neg hstep, if_neg hmod]
      rw [ih (bi + 1) (since + 1) hg2]
      simp

lemma iterLoop_eq_iterSpec (score : Batch → List (ℚ × ℚ)) (lossFn : List (ℚ × ℚ) → ℚ)
    (dl : Nat → Batch) (dev : String) (bpe g : Nat) (hbpe : 0 < bpe) :
    ∀ fuel bi since, bpe - bi % bpe ≤ fuel →
      iterLoop score lossFn dl dev bpe g fuel bi since =
        iterSpec score lossFn dl dev g (bpe - bi % bpe) bi since := by
  intro fuel
  induction fuel with
  | zero =>
    intro bi since h
    have := Nat.mod_lt bi hbpe
    omega
  | succ fuel ih =>
    intro bi since h
    have hlt : bi % bpe < bpe := Nat.mod_lt bi hbpe
    by_cases hbr : (bi + 1) % bpe = 0
    · have h1 : bi % bpe = bpe - 1 := (succ_mod_eq_zero_iff hbpe).mp hbr
      have hn : bpe - bi % bpe = 1 := by omega
      rw [hn]
      simp only [iterLoop, iterSpec]
      rw [if_pos hbr]
      simp
    · have h2 : (bi + 1) % bpe = bi % bpe + 1 := succ_mod_of_ne hbpe hbr
      have hn : bpe - bi % bpe = (bpe - (bi + 1) % bpe) + 1 := by omega
      rw [hn]
      simp only [iterLoop, iterSpec]
      rw [if_neg hbr]
      rw [ih (bi + 1) _ (by omega)]

lemma batches_per_epoch_pos (cfg : Config) : 0 < batches_per_epoch cfg := by
  unfold batches_per_epoch
  split
  · exact Nat.one_pos
  · rename_i h
    exact Nat.pos_of_ne_zero h

lemma batches_per_epoch_eq_max (cfg : Config) :
    batches_per_epoch cfg = max 1 (cfg.itersize / cfg.batch) := by
  unfold batches_per_epoch
  split
  · rename_i h
    simp [h]
  · rename_i h
    exact (Nat.max_eq_right (Nat.pos_of_ne_zero h)).symm

lemma single_train_iteration_eq (score : Batch → List (ℚ × ℚ))
    (lossFn : List (ℚ × ℚ) → ℚ) (dl : Nat → Batch) (dev : String) (cfg : Config) :
    single_train_iteration score lossFn dl dev cfg =
      iterSpec score lossFn dl dev cfg.gradacc (batches_per_epoch cfg) 0 0 := by
  have hbpe := batches_per_epoch_pos cfg
  have h := iterLoop_eq_iterSpec score lossFn dl dev (batches_per_epoch cfg)
    cfg.gradacc hbpe (batches_per_epoch cfg) 0 0 (by simp)
  unfold single_train_iteration
  simpa using h

lemma single_train_iteration_events (score : Batch → List (ℚ × ℚ))
    (lossFn : List (ℚ × ℚ) → ℚ) (dl : Nat → Batch) (dev : String) (cfg : Config) :
    (single_train_iteration score lossFn dl dev cfg).1 =
      specEvents cfg.gradacc (batches_per_epoch cfg) 0 0 := by
  rw [single_train_iteration_eq]
  refine iterSpec_events score lossFn dl dev cfg.gradacc _ 0 0 ?_
  rcases Nat.eq_zero_or_pos cfg.gradacc with h | h
  · exact Or.inl h
  · exact Or.inr h

lemma single_train_iteration_losses (score : Batch → List (ℚ × ℚ))
    (lossFn : List (ℚ × ℚ) → ℚ) (dl : Nat → Batch) (dev : String) (cfg : Config) :
    (single_train_iteration score lossFn dl dev cfg).2 =
      specLosses score lossFn dl dev (batches_per_epoch cfg) 0 := by
  rw [single_train_iteration_eq]
  exact iterSpec_losses score lossFn dl dev cfg.gradacc _ 0 0

lemma specLosses_eq_map (score : Batch → List (ℚ × ℚ)) (lossFn : List (ℚ × ℚ) → ℚ)
    (dl : Nat → Batch) (dev : String) :
    ∀ n bi, specLosses score lossFn dl dev n bi =
      (List.range n).map (fun j => lossFn (score (moveBatch dev (dl (bi + j))))) := by
  intro n
  induction n with
  | zero => intro bi; rfl
  | succ n ih =>
    intro bi
    have hstep : ∀ j : Nat, bi + 1 + j = bi + (j + 1) := by intro j; omega
    simp only [specLosses, ih (bi + 1), List.range_succ_eq_map, List.map_cons,
      List.map_map, Function.comp, Nat.add_zero, Nat.succ_eq_add_one, hstep]
    rfl

lemma countP_isFetch_specEvents (g : Nat) :
    ∀ n bi s, (specEvents g n bi s).countP isFetch = n := by
  intro n
  induction n with
  | zero => intro bi s; rfl
  | succ n ih =>
    intro bi s
    simp only [specEvents, List.countP_append, ih]
    split <;> simp [List.countP_cons, isFetch] <;> omega

lemma specEvents_eq_flatten (g : Nat) :
    ∀ n bi s, specEvents g n bi s =
      ((List.range n).map (fun j =>
        [Event.batchFetch (bi + j), Event.backward (bi + j)] ++
          (if (s + j + 1) % g = 0 then [Event.optStep, Event.zeroGrad] else []))).flatten := by
  intro n
  induction n with
  | zero => intro bi s; rfl
  | succ n ih =>
    intro bi s
    have h1 : ∀ j : Nat, bi + 1 + j = bi + (j + 1) := by intro j; omega
    have h2 : ∀ j : Nat, s + 1 + j + 1 = s + (j + 1) + 1 := by intro j; omega
    simp only [specEvents, ih (bi + 1) (s + 1), List.range_succ_eq_map, List.map_cons,
      List.flatten_cons, List.map_map, Function.comp, Nat.add_zero,
      Nat.succ_eq_add_one, h1, h2]
    rfl

/-! ## Lemmas about the outer training loop -/

lemma iterationChunk_some_eq {enc : Encoder} {dl : Nat → Batch}
    {devBatches : List Batch} {cuda : Bool} {f16 : ℚ → ℚ} {cfg : Config}
    {n : Nat} {evs : List Event}
    (h : iterationChunk enc dl devBatches cuda f16 cfg n = some evs) :
    evs = chunkEvents enc dl cuda cfg n := by
  simp only [iterationChunk] at h
  simp only [chunkEvents]
  by_cases ht : (n + 1) % cfg.validatefreq = 0
  · rw [if_pos ht] at h
    rw [if_pos ht]
    cases hv : validate f16 enc.test (trainDevice cuda) devBatches with
    | none => rw [hv] at h; cases h
    | some r => rw [hv] at h; injection h with h2; exact h2.symm
  · rw [if_neg ht] at h
    rw [if_neg ht]
    injection h with h2
    rw [← h2, List.append_nil]

lemma trainItersGo_some_eq {enc : Encoder} {dl : Nat → Batch}
    {devBatches : List Batch} {cuda : Bool} {f16 : ℚ → ℚ} {cfg : Config} :
    ∀ {ns : List Nat} {evs : List Event},
      trainItersGo enc dl devBatches cuda f16 cfg ns = some evs →
      evs = chunksEvents enc dl cuda cfg ns := by
  intro ns
  induction ns with
  | nil =>
    intro evs h
    injection h with h2
    rw [← h2]
    rfl
  | cons n rest ih =>
    intro evs h
    simp only [trainItersGo] at h
    cases hc : iterationChunk enc dl devBatches cuda f16 cfg n with
    | none => rw [hc] at h; cases h
    | some e1 =>
      rw [hc] at h
      cases hr : trainItersGo enc dl devBatches cuda f16 cfg rest with
      | none => rw [hr] at h; cases h
      | some e2 =>
        rw [hr] at h
        injection h with h2
        rw [← h2, chunksEvents, ← iterationChunk_some_eq hc, ← ih hr]

lemma _train_some_eq {enc : Encoder} {dl : Nat → Batch} {devBatches : List Batch}
    {out : String} {cuda : Bool} {f16 : ℚ → ℚ} {cfg : Config} {tr : List Event}
    (h : _train enc dl devBatches out cuda f16 cfg = some tr) :
    tr = chunksEvents enc dl cuda cfg (List.range cfg.niters) ++
      [Event.saveWeights (out ++ "/trained_weights") true,
       Event.writeFile (out ++ "/done") "done"] := by
  unfold _train at h
  cases hg : trainItersGo enc dl devBatches cuda f16 cfg (List.range cfg.niters) with
  | none => rw [hg] at h; cases h
  | some evs =>
    rw [hg] at h
    injection h with h2
    rw [← h2, ← trainItersGo_some_eq hg]

lemma chunksEvents_append (enc : Encoder) (dl : Nat → Batch) (cuda : Bool)
    (cfg : Config) :
    ∀ ns1 ns2, chunksEvents enc dl cuda cfg (ns1 ++ ns2) =
      chunksEvents enc dl cuda cfg ns1 ++ chunksEvents enc dl cuda cfg ns2 := by
  intro ns1 ns2
  induction ns1 with
  | nil => rfl
  | cons n rest ih =>
    simp only [List.cons_append, chunksEvents, List.append_assoc]
    exact congrArg (fun l => chunkEvents enc dl cuda cfg n ++ l) ih

lemma isIterEvent_of_mem_specEvents (g : Nat) :
    ∀ n bi s e, e ∈ specEvents g n bi s → isIterEvent e = true := by
  intro n
  induction n with
  | zero => intro bi s e h; cases h
  | succ n ih =>
    intro bi s e h
    simp only [specEvents, List.mem_append] at h
    rcases h with (h | h) | h
    · simp only [List.mem_cons, List.not_mem_nil, or_false] at h
      rcases h with rfl | rfl <;> rfl
    · by_cases hc : (s + 1) % g = 0
      · rw [if_pos hc] at h
        simp only [List.mem_cons, List.not_mem_nil, or_false] at h
        rcases h with rfl | rfl <;> rfl
      · rw [if_neg hc] at h
        cases h
    · exact ih (bi + 1) (s + 1) e h

lemma isIterEvent_of_mem_iter {score : Batch → List (ℚ × ℚ)}
    {lossFn : List (ℚ × ℚ) → ℚ} {dl : Nat → Batch} {dev : String} {cfg : Config}
    {e : Event} (h : e ∈ (single_train_iteration score lossFn dl dev cfg).1) :
    isIterEvent e = true := by
  rw [single_train_iteration_events] at h
  exact isIterEvent_of_mem_specEvents _ _ _ _ _ h

lemma lossLog_mem_chunksEvents {enc : Encoder} {dl : Nat → Batch} {cuda : Bool}
    {cfg : Config} {n : Nat} {v : ℚ} :
    ∀ ns, Event.lossLog n v ∈ chunksEvents enc dl cuda cfg ns →
      n ∈ ns ∧ v = listMean (single_train_iteration enc.score
        (activeLossFunction cfg) dl (trainDevice cuda) cfg).2 := by
  intro ns
  induction ns with
  | nil => intro h; cases h
  | cons m rest ih =>
    intro h
    rw [chunksEvents] at h
    rcases List.mem_append.mp h with h1 | h2
    · simp only [chunkEvents, List.mem_append] at h1
      rcases h1 with (h3 | h4) | h5
      · have := isIterEvent_of_mem_iter h3
        simp [isIterEvent] at this
      · simp only [List.mem_cons, List.not_mem_nil, or_false] at h4
        injection h4 with hn hv
        exact ⟨by simp [hn], hv⟩
      · by_cases hc : (m + 1) % cfg.validatefreq = 0
        · rw [if_pos hc] at h5
          simp only [List.mem_cons, List.not_mem_nil, or_false] at h5
          cases h5
        · rw [if_neg hc] at h5
          cases h5
    · obtain ⟨hm, hv⟩ := ih h2
      exact ⟨List.mem_cons_of_mem _ hm, hv⟩

lemma validation_mem_chunksEvents {enc : Encoder} {dl : Nat → Batch}
    {cuda : Bool} {cfg : Config} {i : Nat} :
    ∀ ns, (Event.validation i ∈ chunksEvents enc dl cuda cfg ns ↔
      i ∈ ns ∧ (i + 1) % cfg.validatefreq = 0) := by
  intro ns
  induction ns with
  | nil => simp [chunksEvents]
  | cons m rest ih =>
    constructor
    · intro h
      rw [chunksEvents] at h
      rcases List.mem_append.mp h with h1 | h2
      · simp only [chunkEvents, List.mem_append] at h1
        rcases h1 with (h3 | h4) | h5
        · have := isIterEvent_of_mem_iter h3
          simp [isIterEvent] at this
        · simp only [List.mem_cons, List.not_mem_nil, or_false] at h4
          cases h4
        · by_cases hc : (m + 1) % cfg.validatefreq = 0
          · rw [if_pos hc] at h5
            simp only [List.mem_cons, List.not_mem_nil, or_false] at h5
            injection h5 with hi
            subst hi
            exact ⟨List.mem_cons_self _ _, hc⟩
          · rw [if_neg hc] at h5
            cases h5
      · obtain ⟨hm, hc⟩ := ih.mp h2
        exact ⟨List.mem_cons_of_mem _ hm, hc⟩
    · rintro ⟨hm, hc⟩
      rw [chunksEvents]
      rcases List.mem_cons.mp hm with rfl | hm2
      · apply List.mem_append_left
        simp only [chunkEvents, List.mem_append]
        right
        rw [if_pos hc]
        exact List.mem_singleton.mpr rfl
      · exact List.mem_append_right _ (ih.mpr ⟨hm2, hc⟩)

lemma not_isLoad_of_mem_chunksEvents {enc : Encoder} {dl : Nat → Batch}
    {cuda : Bool} {cfg : Config} {e : Event} :
    ∀ ns, e ∈ chunksEvents enc dl cuda cfg ns → isLoad e = false := by
  intro ns
  induction ns with
  | nil => intro h; cases h
  | cons m rest ih =>
    intro h
    rw [chunksEvents] at h
    rcases List.mem_append.mp h with h1 | h2
    · simp only [chunkEvents, List.mem_append] at h1
      rcases h1 with (h3 | h4) | h5
      · have := isIterEvent_of_mem_iter h3
        cases e <;> simp_all [isIterEvent, isLoad]
      · simp only [List.mem_cons, List.not_mem_nil, or_false] at h4
        subst h4
        rfl
      · by_cases hc : (m + 1) % cfg.validatefreq = 0
        · rw [if_pos hc] at h5
          simp only [List.mem_cons, List.not_mem_nil, or_false] at h5
          subst h5
          rfl
        · rw [if_neg hc] at h5
          cases h5
    · exact ih h2

lemma filter_isValidation_chunksEvents (enc : Encoder) (dl : Nat → Batch)
    (cuda : Bool) (cfg : Config) :
    ∀ ns, (chunksEvents enc dl cuda cfg ns).filter isValidation =
      (ns.filter (fun m => (m + 1) % cfg.validatefreq == 0)).map Event.validation := by
  intro ns
  induction ns with
  | nil => rfl
  | cons m rest ih =>
    rw [chunksEvents, List.filter_append, ih]
    have hiter : (single_train_iteration enc.score (activeLossFunction cfg) dl
        (trainDevice cuda) cfg).1.filter isValidation = [] := by
      rw [List.filter_eq_nil_iff]
      intro e he
      have := isIterEvent_of_mem_iter he
      cases e <;> simp_all [isIterEvent, isValidation]
    by_cases hc : (m + 1) % cfg.validatefreq = 0
    · simp only [chunkEvents, if_pos hc, List.filter_append, hiter, List.filter_cons,
        List.filter_nil]
      have hbeq : ((m + 1) % cfg.validatefreq == 0) = true := by
        simp [hc]
      simp [List.filter_cons, hbeq, isValidation]
    · have hbeq : ((m + 1) % cfg.validatefreq == 0) = false := by
        simp [hc]
      simp only [chunkEvents, if_neg hc, List.filter_append, hiter, List.filter_cons,
        List.filter_nil]
      simp [List.filter_cons, hbeq, isValidation]

/-! ## Lemmas about validation -/

lemma getField_moveBatch (dev : String) (b : Batch) (k : String) :
    getField (moveBatch dev b) k = (getField b k).map (moveField dev) := by
  unfold getField moveBatch
  rw [List.find?_map]
  have hcomp : ((fun e : String × FieldVal => e.1 == k) ∘
      fun kv : String × FieldVal => (kv.1, moveField dev kv.2)) =
      fun e : String × FieldVal => e.1 == k := rfl
  rw [hcomp]
  cases b.find? (fun e => e.1 == k) <;> rfl

lemma itemOf_isSome (l : List ℚ) : (itemOf l).isSome = (l.length == 1) := by
  match l with
  | [] => rfl
  | [x] => rfl
  | x :: y :: rest => rfl

lemma mem_keys_predsPut (p : Preds) (q d : String) (s : ℚ) (q' : String) :
    q' ∈ (predsPut p q d s).map Prod.fst ↔ q' ∈ p.map Prod.fst ∨ q' = q := by
  unfold predsPut
  by_cases hq : p.any (fun e => e.1 == q)
  · rw [if_pos hq]
    have hkeys : (p.map (fun e => if e.1 == q then (q, innerPut e.2 d s) else e)).map
        Prod.fst = p.map Prod.fst := by
      rw [List.map_map]
      apply List.map_congr_left
      intro e _
      by_cases h : e.1 == q
      · simp only [Function.comp_apply, if_pos h]
        exact (beq_iff_eq.mp h).symm
      · simp only [Function.comp_apply, if_neg h]
    rw [hkeys]
    constructor
    · exact Or.inl
    · rintro (h | rfl)
      · exact h
      · obtain ⟨e, he, heq⟩ := List.any_eq_true.mp hq
        rw [← beq_iff_eq.mp heq]
        exact List.mem_map.mpr ⟨e, he, rfl⟩
  · rw [if_neg hq]
    rw [List.map_append]
    simp [List.mem_append]

lemma mem_keys_innerPut (inner : Inner) (d : String) (s : ℚ) (d' : String) :
    d' ∈ (innerPut inner d s).map Prod.fst ↔ d' ∈ inner.map Prod.fst ∨ d' = d := by
  unfold innerPut
  by_cases hd : inner.any (fun p => p.1 == d)
  · rw [if_pos hd]
    have hkeys : (inner.map (fun p => if p.1 == d then (d, s) else p)).map Prod.fst =
        inner.map Prod.fst := by
      rw [List.map_map]
      apply List.map_congr_left
      intro e _
      by_cases h : e.1 == d
      · simp only [Function.comp_apply, if_pos h]
        exact (beq_iff_eq.mp h).symm
      · simp only [Function.comp_apply, if_neg h]
    rw [hkeys]
    constructor
    · exact Or.inl
    · rintro (h | rfl)
      · exact h
      · obtain ⟨e, he, heq⟩ := List.any_eq_true.mp hd
        rw [← beq_iff_eq.mp heq]
        exact List.mem_map.mpr ⟨e, he, rfl⟩
  · rw [if_neg hd]
    rw [List.map_append]
    simp [List.mem_append]

lemma innerOf_predsPut_self (p : Preds) (q d : String) (s : ℚ) :
    innerOf (predsPut p q d s) q = innerPut (innerOf p q) d s := by
  unfold predsPut innerOf
  by_cases hq : p.any (fun e => e.1 == q)
  · rw [if_pos hq, List.find?_map]
    have hcomp : ((fun e : String × Inner => e.1 == q) ∘
        fun e : String × Inner => if e.1 == q then (q, innerPut e.2 d s) else e) =
        fun e : String × Inner => e.1 == q := by
      funext e
      by_cases h : e.1 = q <;> simp [h]
    rw [hcomp]
    cases hf : p.find? (fun e => e.1 == q) with
    | none =>
      obtain ⟨e, he, heq⟩ := List.any_eq_true.mp hq
      rw [List.find?_eq_none] at hf
      exact absurd heq (hf e he)
    | some e =>
      have hpred := List.find?_some hf
      have hp : e.1 = q := beq_iff_eq.mp hpred
      simp [hp]
  · rw [if_neg hq, List.find?_append]
    have hnone : p.find? (fun e : String × Inner => e.1 == q) = none := by
      rw [List.find?_eq_none]
      intro x hx hbx
      exact hq (List.any_eq_true.mpr ⟨x, hx, hbx⟩)
    rw [hnone]
    simp [List.find?, innerPut]

lemma innerOf_predsPut_other (p : Preds) (q d : String) (s : ℚ) (q' : String)
    (hne : q' ≠ q) : innerOf (predsPut p q d s) q' = innerOf p q' := by
  unfold predsPut innerOf
  by_cases hq : p.any (fun e => e.1 == q)
  · rw [if_pos hq, List.find?_map]
    have hcomp : ((fun e : String × Inner => e.1 == q') ∘
        fun e : String × Inner => if e.1 == q then (q, innerPut e.2 d s) else e) =
        fun e : String × Inner => e.1 == q' := by
      funext e
      by_cases h : e.1 == q
      · have he : e.1 = q := beq_iff_eq.mp h
        simp only [Function.comp_apply, if_pos h]
        rw [he]
      · simp only [Function.comp_apply, if_neg h]
    rw [hcomp]
    cases hf : p.find? (fun e => e.1 == q') with
    | none => rfl
    | some e =>
      have hpred := List.find?_some hf
      have he : e.1 = q' := beq_iff_eq.mp hpred
      simp [he, hne]
  · rw [if_neg hq, List.find?_append]
    cases hf : p.find? (fun e : String × Inner => e.1 == q') with
    | some e => rfl
    | none =>
      have hqq : ((q, [(d, s)]).1 == q') = false := by
        simp only []
        exact beq_eq_false_iff_ne.mpr (Ne.symm hne)
      simp [List.find?, hqq]

lemma mem_innerPut_val {inner : Inner} {d : String} {s : ℚ} {x : String × ℚ}
    (h : x ∈ innerPut inner d s) : x.2 = s ∨ x ∈ inner := by
  unfold innerPut at h
  by_cases hd : inner.any (fun p => p.1 == d)
  · rw [if_pos hd] at h
    obtain ⟨y, hy, hxy⟩ := List.mem_map.mp h
    by_cases hyd : y.1 == d
    · rw [if_pos hyd] at hxy
      left
      rw [← hxy]
    · rw [if_neg hyd] at hxy
      right
      rw [← hxy]
      exact hy
  · rw [if_neg hd] at h
    rcases List.mem_append.mp h with h1 | h2
    · right; exact h1
    · left
      rw [List.mem_singleton.mp h2]

lemma mem_predsPut_val {p : Preds} {q d : String} {s : ℚ} {e : String × Inner}
    {x : String × ℚ} (he : e ∈ predsPut p q d s) (hx : x ∈ e.2) :
    x.2 = s ∨ ∃ e0 ∈ p, x ∈ e0.2 := by
  unfold predsPut at he
  by_cases hq : p.any (fun e => e.1 == q)
  · rw [if_pos hq] at he
    obtain ⟨y, hy, hye⟩ := List.mem_map.mp he
    by_cases hyq : y.1 == q
    · rw [if_pos hyq] at hye
      rw [← hye] at hx
      rcases mem_innerPut_val hx with h1 | h2
      · exact Or.inl h1
      · exact Or.inr ⟨y, hy, h2⟩
    · rw [if_neg hyq] at hye
      rw [← hye] at hx
      exact Or.inr ⟨y, hy, hx⟩
  · rw [if_neg hq] at he
    rcases List.mem_append.mp he with h1 | h2
    · exact Or.inr ⟨e, h1, hx⟩
    · rw [List.mem_singleton.mp h2] at hx
      simp only [List.mem_singleton] at hx
      exact Or.inl (by rw [hx])

lemma validateBatch_isSome (f16 : ℚ → ℚ) (tst : Batch → List ℚ) (dev : String)
    (b : Batch) (preds : Preds) :
    (validateBatch f16 tst dev b preds).isSome = okValBatch tst dev b := by
  unfold validateBatch okValBatch
  cases hq : getField b "qid" with
  | none => simp [hq, fieldAsList]
  | some fvq =>
    cases fvq with
    | tensor t => simp [hq, fieldAsList]
    | list qs =>
      cases qs with
      | nil => simp [hq, fieldAsList]
      | cons q qtl =>
        cases hd : getField b "posdocid" with
        | none => simp [hq, hd, fieldAsList, getField_moveBatch, moveField]
        | some fvd =>
          cases fvd with
          | tensor t => simp [hq, hd, fieldAsList, getField_moveBatch, moveField]
          | list ds =>
            cases ds with
            | nil => simp [hq, hd, fieldAsList, getField_moveBatch, moveField]
            | cons d dtl =>
              cases hs : tst (moveBatch dev b) with
              | nil =>
                simp [hq, hd, hs, fieldAsList, getField_moveBatch, moveField, itemOf]
              | cons s stl =>
                cases stl with
                | nil =>
                  simp [hq, hd, hs, fieldAsList, getField_moveBatch, moveField, itemOf]
                | cons s2 stl2 =>
                  simp [hq, hd, hs, fieldAsList, getField_moveBatch, moveField, itemOf]

lemma validateBatch_oneExample {f16 : ℚ → ℚ} {tst : Batch → List ℚ} {dev : String}
    {b : Batch} (h : oneExample tst dev b = true) (preds : Preds) :
    ∃ q d s, getField b "qid" = some (FieldVal.list [q]) ∧
      getField b "posdocid" = some (FieldVal.list [d]) ∧
      tst (moveBatch dev b) = [s] ∧
      validateBatch f16 tst dev b preds =
        some (predsPut preds q d (f16 s), (q, d, f16 s)) := by
  unfold oneExample at h
  simp only [Bool.and_eq_true, beq_iff_eq] at h
  obtain ⟨⟨h1, h2⟩, h3⟩ := h
  cases hq : getField b "qid" with
  | none => rw [hq] at h1; simp at h1
  | some fvq =>
    cases fvq with
    | tensor t => rw [hq] at h1; simp at h1
    | list qs =>
      match qs with
      | [] => rw [hq] at h1; simp at h1
      | q :: q2 :: qtl => rw [hq] at h1; simp at h1
      | [q] =>
        cases hd : getField b "posdocid" with
        | none => rw [hd] at h2; simp at h2
        | some fvd =>
          cases fvd with
          | tensor t => rw [hd] at h2; simp at h2
          | list ds =>
            match ds with
            | [] => rw [hd] at h2; simp at h2
            | d :: d2 :: dtl => rw [hd] at h2; simp at h2
            | [d] =>
              obtain ⟨s, hs⟩ := List.length_eq_one.mp h3
              refine ⟨q, d, s, rfl, rfl, hs, ?_⟩
              simp [validateBatch, hq, hd, hs, getField_moveBatch, fieldAsList,
                moveField, itemOf]

lemma validateGo_oneExample {f16 : ℚ → ℚ} {tst : Batch → List ℚ} {dev : String} :
    ∀ (batches : List Batch) (acc : Preds) (log : List ValLogEntry),
      (∀ b ∈ batches, oneExample tst dev b = true) →
      ∃ r, validateGo f16 tst dev batches acc log = some r ∧
        (∀ q', q' ∈ r.1.map Prod.fst ↔ q' ∈ acc.map Prod.fst ∨
          ∃ b ∈ batches, getField b "qid" = some (FieldVal.list [q'])) ∧
        (∀ q' d', d' ∈ (innerOf r.1 q').map Prod.fst ↔
          d' ∈ (innerOf acc q').map Prod.fst ∨
          ∃ b ∈ batches, getField b "qid" = some (FieldVal.list [q']) ∧
            getField b "posdocid" = some (FieldVal.list [d'])) ∧
        (∀ e ∈ r.1, ∀ x ∈ e.2, (∃ s, x.2 = f16 s) ∨ ∃ e0 ∈ acc, x ∈ e0.2) := by
  intro batches
  induction batches with
  | nil =>
    intro acc log _
    refine ⟨(acc, log), rfl, by simp, by simp, ?_⟩
    intro e he x hx
    exact Or.inr ⟨e, he, hx⟩
  | cons b rest ih =>
    intro acc log hall
    obtain ⟨q, d, s, hq, hd, hs, hvb⟩ :=
      validateBatch_oneExample (hall b (List.mem_cons_self b rest)) acc
    obtain ⟨r, hr, hkeys, hinner, hvals⟩ :=
      ih (predsPut acc q d (f16 s)) (log ++ [(q, d, f16 s)])
        (fun b2 h2 => hall b2 (List.mem_cons_of_mem b h2))
    refine ⟨r, ?_, ?_, ?_, ?_⟩
    · rw [validateGo, hvb]
      exact hr
    · intro q'
      rw [hkeys q', mem_keys_predsPut]
      constructor
      · rintro ((h1 | rfl) | ⟨b2, hb2, hh⟩)
        · exact Or.inl h1
        · exact Or.inr ⟨b, List.mem_cons_self b rest, hq⟩
        · exact Or.inr ⟨b2, List.mem_cons_of_mem b hb2, hh⟩
      · rintro (h1 | ⟨b2, hb2, hh⟩)
        · exact Or.inl (Or.inl h1)
        · rcases List.mem_cons.mp hb2 with rfl | hb3
          · rw [hq] at hh
            injection hh with hh1
            injection hh1 with hh2
            injection hh2 with hh3 hh4
            exact Or.inl (Or.inr hh3.symm)
          · exact Or.inr ⟨b2, hb3, hh⟩
    · intro q' d'
      rw [hinner q' d']
      by_cases hq' : q' = q
      · subst hq'
        rw [innerOf_predsPut_self, mem_keys_innerPut]
        constructor
        · rintro ((h1 | rfl) | ⟨b2, hb2, hh1, hh2⟩)
          · exact Or.inl h1
          · exact Or.inr ⟨b, List.mem_cons_self b rest, hq, hd⟩
          · exact Or.inr ⟨b2, List.mem_cons_of_mem b hb2, hh1, hh2⟩
        · rintro (h1 | ⟨b2, hb2, hh1, hh2⟩)
          · exact Or.inl (Or.inl h1)
          · rcases List.mem_cons.mp hb2 with rfl | hb3
            · rw [hd] at hh2
              injection hh2 with hx1
              injection hx1 with hx2
              injection hx2 with hx3 hx4
              exact Or.inl (Or.inr hx3.symm)
            · exact Or.inr ⟨b2, hb3, hh1, hh2⟩
      · rw [innerOf_predsPut_other _ _ _ _ _ hq']
        constructor
        · rintro (h1 | ⟨b2, hb2, hh1, hh2⟩)
          · exact Or.inl h1
          · exact Or.inr ⟨b2, List.mem_cons_of_mem b hb2, hh1, hh2⟩
        · rintro (h1 | ⟨b2, hb2, hh1, hh2⟩)
          · exact Or.inl h1
          · rcases List.mem_cons.mp hb2 with rfl | hb3
            · rw [hq] at hh1
              injection hh1 with hx1
              injection hx1 with hx2
              injection hx2 with hx3 hx4
              exact absurd hx3.symm hq'
            · exact Or.inr ⟨b2, hb3, hh1, hh2⟩
    · intro e he x hx
      rcases hvals e he x hx with h1 | ⟨e0, he0, hx0⟩
      · exact Or.inl h1
      · rcases mem_predsPut_val he0 hx0 with h2 | ⟨e1, he1, hx1⟩
        · exact Or.inl ⟨s, h2⟩
        · exact Or.inr ⟨e1, he1, hx1⟩

/-! ## Claim theorems -/

/-- C1: for every configuration (with the positive batch size Python's
integer division requires) and every training batch source, one call to
`single_train_iteration` pulls exactly `max 1 (itersize / batch)` batches
from the source.  The source is quantified as an arbitrary stream (per the
spec it cycles/truncates as needed), so the count is independent of the
training-set size `S`. -/
theorem claim_C1 (score : Batch → List (ℚ × ℚ)) (lossFn : List (ℚ × ℚ) → ℚ)
    (dl : Nat → Batch) (dev : String) (cfg : Config) (hb : 0 < cfg.batch) :
    (single_train_iteration score lossFn dl dev cfg).1.countP isFetch =
      max 1 (cfg.itersize / cfg.batch) := by
  rw [single_train_iteration_events, countP_isFetch_specEvents,
    batches_per_epoch_eq_max]

/-- Witness for C1: a concrete configuration with `itersize=5`, `batch=2`
(so `5 // 2 = 2` batches per iteration). -/
theorem claim_C1_witness :
    (single_train_iteration sampleEncoder.score pair_hinge_loss sampleLoader
      "cpu" { batch := 2, itersize := 5 }).1.countP isFetch = max 1 (5 / 2) :=
  claim_C1 _ _ _ _ _ (by decide)

/-- C2: in a training iteration, batch `j` (0-based) is followed by an
optimizer step and a gradient clear exactly when it completes a group of
`gradacc` backward passes since the last step, i.e. iff
`(j + 1) % gradacc = 0`; in particular for `gradacc = 1` every batch
triggers an update.  Second conjunct: in the spec's end-to-end scenario
(`scenarioConfig`: `batch=2`, `itersize=4`, `niters=1`, `gradacc=1`; with
`batch=2` a 4-example training set yields 2-example batches, and the counts
hold for every batch stream) a full `_train` run fetches exactly 2 training
batches and performs exactly 2 optimizer steps. -/
theorem claim_C2 (score : Batch → List (ℚ × ℚ)) (lossFn : List (ℚ × ℚ) → ℚ)
    (dl : Nat → Batch) (dev : String) (cfg : Config) (hb : 0 < cfg.batch) :
    (single_train_iteration score lossFn dl dev cfg).1 =
      ((List.range (batches_per_epoch cfg)).map (fun j =>
        [Event.batchFetch j, Event.backward j] ++
          (if (j + 1) % cfg.gradacc = 0 then [Event.optStep, Event.zeroGrad]
           else []))).flatten ∧
    (∀ (enc : Encoder) (dl2 : Nat → Batch) (devB : List Batch) (out : String)
        (cuda : Bool) (f16 : ℚ → ℚ),
      Option.map (fun tr => (tr.countP isFetch, tr.countP isOptStep))
        (_train enc dl2 devB out cuda f16 scenarioConfig) = some (2, 2)) := by
  constructor
  · rw [single_train_iteration_events, specEvents_eq_flatten]
    simp
  · intro enc dl2 devB out cuda f16
    have hchunk : iterationChunk enc dl2 devB cuda f16 scenarioConfig 0 =
        some ((single_train_iteration enc.score (activeLossFunction scenarioConfig)
            dl2 (trainDevice cuda) scenarioConfig).1 ++
          [Event.lossLog 0 (listMean (single_train_iteration enc.score
            (activeLossFunction scenarioConfig) dl2 (trainDevice cuda)
            scenarioConfig).2)]) := by
      rw [iterationChunk]
      norm_num [scenarioConfig]
    have hgo : trainItersGo enc dl2 devB cuda f16 scenarioConfig [0] =
        some (((single_train_iteration enc.score (activeLossFunction scenarioConfig)
            dl2 (trainDevice cuda) scenarioConfig).1 ++
          [Event.lossLog 0 (listMean (single_train_iteration enc.score
            (activeLossFunction scenarioConfig) dl2 (trainDevice cuda)
            scenarioConfig).2)]) ++ []) := by
      rw [trainItersGo, hchunk]
      rfl
    have htr : _train enc dl2 devB out cuda f16 scenarioConfig =
        some ((((single_train_iteration enc.score (activeLossFunction scenarioConfig)
            dl2 (trainDevice cuda) scenarioConfig).1 ++
          [Event.lossLog 0 (listMean (single_train_iteration enc.score
            (activeLossFunction scenarioConfig) dl2 (trainDevice cuda)
            scenarioConfig).2)]) ++ []) ++
          [Event.saveWeights (out ++ "/trained_weights") true,
           Event.writeFile (out ++ "/done") "done"]) := by
      rw [_train, show List.range scenarioConfig.niters = [0] from rfl, hgo]
    rw [htr]
    have hev := single_train_iteration_events enc.score
      (activeLossFunction scenarioConfig) dl2 (trainDevice cuda) scenarioConfig
    have hbpe : batches_per_epoch scenarioConfig = 2 := by decide
    rw [hbpe] at hev
    have hspec : specEvents scenarioConfig.gradacc 2 0 0 =
        [Event.batchFetch 0, Event.backward 0, Event.optStep, Event.zeroGrad,
         Event.batchFetch 1, Event.backward 1, Event.optStep, Event.zeroGrad] := by
      decide
    rw [hspec] at hev
    simp [hev, List.countP_append, List.countP_cons, isFetch, isOptStep]

/-- Witness for C2 at a concrete configuration (`gradacc = 2`, four batches
per iteration: the trace shows steps exactly after batches 1 and 3). -/
theorem claim_C2_witness :
    ((single_train_iteration sampleEncoder.score pair_hinge_loss sampleLoader
        "cpu" { batch := 1, itersize := 4, gradacc := 2 }).1 =
      ((List.range (batches_per_epoch
          { batch := 1, itersize := 4, gradacc := 2 })).map (fun j =>
        [Event.batchFetch j, Event.backward j] ++
          (if (j + 1) % (2 : Nat) = 0 then [Event.optStep, Event.zeroGrad]
           else []))).flatten ∧
    (∀ (enc : Encoder) (dl2 : Nat → Batch) (devB : List Batch) (out : String)
        (cuda : Bool) (f16 : ℚ → ℚ),
      Option.map (fun tr => (tr.countP isFetch, tr.countP isOptStep))
        (_train enc dl2 devB out cuda f16 scenarioConfig) = some (2, 2))) :=
  claim_C2 _ _ _ _ _ (by decide)

lemma trainItersGo_softmaxloss (enc : Encoder) (dl : Nat → Batch)
    (devB : List Batch) (cuda : Bool) (f16 : ℚ → ℚ) (cfg : Config)
    (bflag : Bool) :
    ∀ ns, trainItersGo enc dl devB cuda f16 { cfg with softmaxloss := bflag } ns =
      trainItersGo enc dl devB cuda f16 cfg ns := by
  intro ns
  induction ns with
  | nil => rfl
  | cons n rest ih =>
    have hchunk : iterationChunk enc dl devB cuda f16
        { cfg with softmaxloss := bflag } n =
        iterationChunk enc dl devB cuda f16 cfg n := rfl
    simp only [trainItersGo, hchunk, ih]

lemma _train_softmaxloss (enc : Encoder) (dl : Nat → Batch) (devB : List Batch)
    (out : String) (cuda : Bool) (f16 : ℚ → ℚ) (cfg : Config) (bflag : Bool) :
    _train enc dl devB out cuda f16 { cfg with softmaxloss := bflag } =
      _train enc dl devB out cuda f16 cfg := by
  unfold _train
  rw [show ({ cfg with softmaxloss := bflag } : Config).niters = cfg.niters from rfl,
    trainItersGo_softmaxloss]

/-- C4: the loss selection of `_train` (line 87) yields `pair_hinge_loss`
for every configuration, and flipping the `softmaxloss` option changes
nothing about a run of `_train` (or of `train`): the option is not wired to
the loss selection. -/
theorem claim_C4 :
    (∀ cfg : Config, activeLossFunction cfg = pair_hinge_loss) ∧
    (∀ (enc : Encoder) (dl : Nat → Batch) (devB : List Batch) (out : String)
        (cuda : Bool) (f16 : ℚ → ℚ) (cfg : Config) (bflag : Bool),
      _train enc dl devB out cuda f16 { cfg with softmaxloss := bflag } =
        _train enc dl devB out cuda f16 cfg) ∧
    (∀ (enc : Encoder) (dl : Nat → Batch) (devB : List Batch) (out : String)
        (cuda : Bool) (f16 : ℚ → ℚ) (cfg : Config) (bflag : Bool),
      train enc dl devB out cuda f16 { cfg with softmaxloss := bflag } =
        train enc dl devB out cuda f16 cfg) := by
  refine ⟨fun _ => rfl, fun enc dl devB out cuda f16 cfg bflag =>
    _train_softmaxloss enc dl devB out cuda f16 cfg bflag, ?_⟩
  intro enc dl devB out cuda f16 cfg bflag
  unfold train
  rw [_train_softmaxloss]

/-- C7: the device-move comprehension keeps the key list of the batch
unchanged, leaves every identifier-list field exactly as it was (in both
directions), and sends every tensor field to the same data on the selected
device; conversely every tensor in the moved batch is on the selected device
and carries the data of a tensor of the original batch under the same key. -/
theorem claim_C7 (dev : String) (b : Batch) :
    (moveBatch dev b).map Prod.fst = b.map Prod.fst ∧
    (∀ k xs, (k, FieldVal.list xs) ∈ moveBatch dev b ↔ (k, FieldVal.list xs) ∈ b) ∧
    (∀ k t, (k, FieldVal.tensor t) ∈ b →
      (k, FieldVal.tensor (Tensor.mk t.data dev)) ∈ moveBatch dev b) ∧
    (∀ k t, (k, FieldVal.tensor t) ∈ moveBatch dev b →
      t.device = dev ∧ ∃ t0, (k, FieldVal.tensor t0) ∈ b ∧ t0.data = t.data) := by
  refine ⟨?_, ?_, ?_, ?_⟩
  · unfold moveBatch
    rw [List.map_map]
    rfl
  · intro k xs
    constructor
    · intro h
      obtain ⟨y, hy, hxy⟩ := List.mem_map.mp h
      obtain ⟨yk, yv⟩ := y
      cases yv with
      | tensor t =>
        exfalso
        injection hxy with h1 h2
        cases h2
      | list ys =>
        injection hxy with h1 h2
        injection h2 with h3
        rw [← h1, ← h3]
        exact hy
    · intro h
      exact List.mem_map.mpr ⟨(k, FieldVal.list xs), h, rfl⟩
  · intro k t h
    exact List.mem_map.mpr ⟨(k, FieldVal.tensor t), h, rfl⟩
  · intro k t h
    obtain ⟨y, hy, hxy⟩ := List.mem_map.mp h
    obtain ⟨yk, yv⟩ := y
    cases yv with
    | list ys =>
      exfalso
      injection hxy with h1 h2
      cases h2
    | tensor t0 =>
      injection hxy with h1 h2
      injection h2 with h3
      refine ⟨?_, t0, ?_, ?_⟩
      · rw [← h3]
        rfl
      · rw [← h1]
        exact hy
      · rw [← h3]
        rfl

/-- Witness for C7: a concrete two-field batch moved to `"cuda"`. -/
theorem claim_C7_witness :
    ("emb", FieldVal.tensor (Tensor.mk [1, 2] "cuda")) ∈
      moveBatch "cuda" [("emb", FieldVal.tensor (Tensor.mk [1, 2] "cpu")),
        ("qid", FieldVal.list ["q1"])] :=
  (claim_C7 "cuda" [("emb", FieldVal.tensor (Tensor.mk [1, 2] "cpu")),
      ("qid", FieldVal.list ["q1"])]).2.2.1
    "emb" (Tensor.mk [1, 2] "cpu") (by decide)

/-- C8: whenever `_train` runs to completion, its trace ends with saving the
encoder weights together with the optimizer state under
`output_path / "trained_weights"`, immediately followed by writing the
sentinel file `output_path / "done"` with literal content `"done"`. -/
theorem claim_C8 {enc : Encoder} {dl : Nat → Batch} {devB : List Batch}
    {out : String} {cuda : Bool} {f16 : ℚ → ℚ} {cfg : Config} {tr : List Event}
    (h : _train enc dl devB out cuda f16 cfg = some tr) :
    ∃ pre, tr = pre ++ [Event.saveWeights (out ++ "/trained_weights") true,
                        Event.writeFile (out ++ "/done") "done"] :=
  ⟨_, _train_some_eq h⟩

/-- Witness for C8: a concrete completed run (`niters = 0`). -/
theorem claim_C8_witness :
    ∃ pre, [Event.saveWeights ("out" ++ "/trained_weights") true,
            Event.writeFile ("out" ++ "/done") "done"] =
      pre ++ [Event.saveWeights ("out" ++ "/trained_weights") true,
              Event.writeFile ("out" ++ "/done") "done"] :=
  @claim_C8 sampleEncoder sampleLoader [] "out" false (fun s => s)
    { niters := 0 } _ (by decide)

/-- C3: in every completed `train` invocation exactly one of resuming (a
`loadWeights` event occurs) and training from scratch (a `saveWeights` event
occurs) happens, never both; and when the encoder reports a completed
checkpoint the whole trace is the resume trace: the saved weights are loaded
together with the optimizer state, a warning is emitted, and there are zero
optimizer steps and zero pulls from the training batch source. -/
theorem claim_C3 {enc : Encoder} {dl : Nat → Batch} {devB : List Batch}
    {out : String} {cuda : Bool} {f16 : ℚ → ℚ} {cfg : Config} {tr : List Event}
    (h : train enc dl devB out cuda f16 cfg = some tr) :
    (enc.weightsExist = true →
      tr = [Event.loadWeights (enc.resultsPath ++ "/trained_weights") true,
            Event.warn "Skipping training since weights were found"] ∧
      tr.countP isOptStep = 0 ∧ tr.countP isFetch = 0) ∧
    ((∃ p w, Event.loadWeights p w ∈ tr) ∧ ¬(∃ p w, Event.saveWeights p w ∈ tr) ∨
     (∃ p w, Event.saveWeights p w ∈ tr) ∧ ¬(∃ p w, Event.loadWeights p w ∈ tr)) := by
  unfold train at h
  split at h
  · rename_i hex
    injection h with h2
    subst h2
    constructor
    · intro _
      exact ⟨rfl, rfl, rfl⟩
    · left
      constructor
      · exact ⟨_, _, List.mem_cons_self _ _⟩
      · rintro ⟨p, w, hmem⟩
        simp at hmem
  · rename_i hex
    have htr := _train_some_eq h
    constructor
    · intro hcontra
      exact absurd hcontra hex
    · right
      constructor
      · refine ⟨out ++ "/trained_weights", true, ?_⟩
        rw [htr]
        exact List.mem_append_right _ (List.mem_cons_self _ _)
      · rintro ⟨p, w, hmem⟩
        rw [htr] at hmem
        rcases List.mem_append.mp hmem with h1 | h2
        · have h3 := not_isLoad_of_mem_chunksEvents _ h1
          simp [isLoad] at h3
        · simp at h2

/-- Witness for C3: a resume run (`exists()` true) whose whole trace is the
load plus the warning. -/
theorem claim_C3_witness :
    [Event.loadWeights ("results" ++ "/trained_weights") true,
     Event.warn "Skipping training since weights were found"].countP isFetch = 0 :=
  ((@claim_C3 sampleEncoderDone sampleLoader [] "out" false (fun s => s)
      smallConfig
      [Event.loadWeights ("results" ++ "/trained_weights") true,
       Event.warn "Skipping training since weights were found"]
      (by decide)).1 rfl).2.2

/-- C6: in a completed `_train` run (with the positive `validatefreq` that
Python's modulo requires), a validation event for iteration `i` (0-based)
occurs exactly when `i < niters` and the 1-based index `i + 1` is a multiple
of `validatefreq`; and for `niters = 6`, `validatefreq = 6` validation runs
exactly once, after the final iteration (the trace ends with the validation
of iteration 5 followed only by the checkpoint save and the sentinel
write). -/
theorem claim_C6 {enc : Encoder} {dl : Nat → Batch} {devB : List Batch}
    {out : String} {cuda : Bool} {f16 : ℚ → ℚ} {cfg : Config}
    (hv : 0 < cfg.validatefreq) {tr : List Event}
    (h : _train enc dl devB out cuda f16 cfg = some tr) :
    (∀ i, Event.validation i ∈ tr ↔
      i < cfg.niters ∧ (i + 1) % cfg.validatefreq = 0) ∧
    (cfg.niters = 6 → cfg.validatefreq = 6 →
      tr.filter isValidation = [Event.validation 5] ∧
      ∃ pre, tr = pre ++ [Event.validation 5,
        Event.saveWeights (out ++ "/trained_weights") true,
        Event.writeFile (out ++ "/done") "done"]) := by
  have htr := _train_some_eq h
  constructor
  · intro i
    rw [htr]
    constructor
    · intro hmem
      rcases List.mem_append.mp hmem with h1 | h2
      · have h3 := (validation_mem_chunksEvents _).mp h1
        exact ⟨List.mem_range.mp h3.1, h3.2⟩
      · simp at h2
    · rintro ⟨hi, hm⟩
      exact List.mem_append_left _
        ((validation_mem_chunksEvents _).mpr ⟨List.mem_range.mpr hi, hm⟩)
  · intro h6 hvf
    constructor
    · rw [htr, List.filter_append, filter_isValidation_chunksEvents, h6, hvf]
      rfl
    · refine ⟨chunksEvents enc dl cuda cfg (List.range 5) ++
        ((single_train_iteration enc.score (activeLossFunction cfg) dl
          (trainDevice cuda) cfg).1 ++
         [Event.lossLog 5 (listMean (single_train_iteration enc.score
           (activeLossFunction cfg) dl (trainDevice cuda) cfg).2)]), ?_⟩
      rw [htr, h6, show (6 : Nat) = 5 + 1 from rfl, List.range_succ,
        chunksEvents_append]
      rw [show chunksEvents enc dl cuda cfg [5] =
        chunkEvents enc dl cuda cfg 5 ++ [] from rfl]
      simp only [chunkEvents, hvf, List.append_nil]
      simp [List.append_assoc]

/-- Witness for C6: the concrete six-iteration run (`niters = 6`,
`validatefreq = 6`) validates exactly once, at iteration 5. -/
theorem claim_C6_witness :
    sampleTraceSix.filter isValidation = [Event.validation 5] :=
  ((@claim_C6 sampleEncoder sampleLoader [] "out" false (fun s => s)
      sampleCfgSix (by decide) sampleTraceSix rfl).2 rfl rfl).1

/-- C9: every per-iteration loss value logged by a completed `_train` run is
the arithmetic mean of the per-batch losses accumulated during that
iteration - one hinge loss per consumed batch, the loss of that batch. -/
theorem claim_C9 {enc : Encoder} {dl : Nat → Batch} {devB : List Batch}
    {out : String} {cuda : Bool} {f16 : ℚ → ℚ} {cfg : Config} {tr : List Event}
    (h : _train enc dl devB out cuda f16 cfg = some tr) {n : Nat} {v : ℚ}
    (hmem : Event.lossLog n v ∈ tr) :
    v = listMean ((List.range (batches_per_epoch cfg)).map (fun j =>
      pair_hinge_loss (enc.score (moveBatch (trainDevice cuda) (dl j))))) := by
  have htr := _train_some_eq h
  rw [htr] at hmem
  rcases List.mem_append.mp hmem with h1 | h2
  · have h3 := lossLog_mem_chunksEvents _ h1
    rw [h3.2, single_train_iteration_losses, specLosses_eq_map]
    simp [activeLossFunction]
  · simp at h2

/-- Witness for C9: in the concrete one-iteration run the logged loss value
equals the mean of the per-batch hinge losses. -/
theorem claim_C9_witness :
    sampleLossOne = listMean ((List.range (batches_per_epoch smallConfig)).map
      (fun j => pair_hinge_loss (sampleEncoder.score
        (moveBatch (trainDevice false) (sampleLoader j))))) :=
  @claim_C9 sampleEncoder sampleLoader [] "out" false (fun s => s) smallConfig
    sampleTraceOne rfl 0 sampleLossOne
    (by simp [sampleTraceOne, sampleIterEvents])

/-- C5 counterexample: `validate` does not return a predictions map for
every validation batch source - on a source whose single batch holds two
examples (two qids, two posdocids, two scores), the per-batch log write
(`scores.astype(np.float16).item()`) raises, modelled as `none`. -/
theorem claim_C5_counterexample :
    validate (fun s => s) twoScores "cpu" [twoExampleBatch] = none := by
  decide

/-- C5 (amended): for every validation batch source in which each batch
holds exactly one example (a singleton qid list, a singleton posdocid list,
and one score), `validate` succeeds and returns a nested mapping whose outer
key set is exactly the set of distinct query identifiers seen across the
batches, whose inner key set for each query is exactly the set of distinct
document identifiers paired with that query, and each stored value is a
reduced-precision (`f16`-converted) score. -/
theorem claim_C5 (f16 : ℚ → ℚ) (tst : Batch → List ℚ) (dev : String)
    (batches : List Batch) (h : ∀ b ∈ batches, oneExample tst dev b = true) :
    ∃ r, validate f16 tst dev batches = some r ∧
      (∀ q, q ∈ r.1.map Prod.fst ↔
        ∃ b ∈ batches, getField b "qid" = some (FieldVal.list [q])) ∧
      (∀ q d, d ∈ (innerOf r.1 q).map Prod.fst ↔
        ∃ b ∈ batches, getField b "qid" = some (FieldVal.list [q]) ∧
          getField b "posdocid" = some (FieldVal.list [d])) ∧
      (∀ e ∈ r.1, ∀ x ∈ e.2, ∃ s, x.2 = f16 s) := by
  obtain ⟨r, hr, hkeys, hinner, hvals⟩ := validateGo_oneExample batches [] [] h
  refine ⟨r, hr, ?_, ?_, ?_⟩
  · intro q
    rw [hkeys q]
    simp
  · intro q d
    rw [hinner q d]
    simp [innerOf]
  · intro e he x hx
    rcases hvals e he x hx with h1 | ⟨e0, he0, _⟩
    · exact h1
    · cases he0

/-- Witness for C5 (amended) on a concrete two-batch source. -/
theorem claim_C5_witness :
    ∃ r, validate (fun s => s) oneScore "cpu"
        [oneExampleBatch, oneExampleBatch2] = some r ∧
      (∀ q, q ∈ r.1.map Prod.fst ↔
        ∃ b ∈ [oneExampleBatch, oneExampleBatch2],
          getField b "qid" = some (FieldVal.list [q])) ∧
      (∀ q d, d ∈ (innerOf r.1 q).map Prod.fst ↔
        ∃ b ∈ [oneExampleBatch, oneExampleBatch2],
          getField b "qid" = some (FieldVal.list [q]) ∧
            getField b "posdocid" = some (FieldVal.list [d])) ∧
      (∀ e ∈ r.1, ∀ x ∈ e.2, ∃ s, x.2 = (fun s : ℚ => s) s) :=
  claim_C5 _ _ _ _ (by decide)

lemma validateGo_isSome (f16 : ℚ → ℚ) (tst : Batch → List ℚ) (dev : String) :
    ∀ (batches : List Batch) (acc : Preds) (log : List ValLogEntry),
      (validateGo f16 tst dev batches acc log).isSome =
        batches.all (okValBatch tst dev) := by
  intro batches
  induction batches with
  | nil => intro acc log; rfl
  | cons b rest ih =>
    intro acc log
    have hok := validateBatch_isSome f16 tst dev b acc
    rw [validateGo]
    cases hv : validateBatch f16 tst dev b acc with
    | none =>
      rw [hv] at hok
      simp [List.all_cons, ← hok]
    | some r =>
      rw [hv] at hok
      simp [List.all_cons, ← hok, ih]

/-- C10: `validate` completes without raising exactly when every batch of
the validation source yields a nonempty qid list, a nonempty posdocid list,
and exactly one score - in particular it completes only when every batch
yields exactly one score (the per-batch log write converts the whole score
array to a scalar via `.item()`), it is well defined on one-example batches,
and it raises for every batch carrying more than one score. -/
theorem claim_C10 (f16 : ℚ → ℚ) (tst : Batch → List ℚ) (dev : String)
    (batches : List Batch) :
    (validate f16 tst dev batches).isSome = batches.all (okValBatch tst dev) :=
  validateGo_isSome f16 tst dev batches [] []

end Capreolus
